import Mathlib

/-!
Shallow embedding of the Go package neuron (src/neuron.go).

Go channels are modelled by numeric identifiers handed out by a counter
(every make-chan in the source allocates a fresh identifier).  The three
package-level variables of src/neuron.go lines 34-38 are gathered in a
record named World.  The body of the goroutine launched by Run
(src/neuron.go lines 196-251) is modelled as a function from the neuron
and the event chosen by reflect.Select to the step outcome; an
out-of-range slice index, which panics in Go, is modelled by the Option
value none.
-/

/-- Lifecycle state of a neuron, src/neuron.go lines 10-16. -/
inductive Nstate
  | stopped
  | running
  | paused
deriving DecidableEq, Repr

/-- Control message carried on a control channel, src/neuron.go lines 30-32. -/
structure CntlMsg where
  cmd : String
deriving DecidableEq, Repr

/-- The Neuron record, src/neuron.go lines 42-55.  Channel-typed fields hold
channel identifiers; the two lazily-set channel fields (lastInChan,
waitForChan) are Option values, none standing for the Go nil channel. -/
structure Neuron where
  cntlChan : Nat
  dendriteChans : List Nat
  axonChans : List Nat
  connected : Bool
  state : Nstate
  sigma : Int
  threshold : Int
  lastInChan : Option Nat
  waitForChan : Option Nat
  tickChan : Nat
  activity : Int
deriving DecidableEq, Repr

/-- Package-level state, src/neuron.go lines 34-38: the started flag, the
registry of neurons and the registered control channels.  nextChan is the
supply of fresh channel identifiers. -/
structure World where
  started : Bool
  neurons : List Neuron
  cntlChans : List Nat
  nextChan : Nat
deriving Repr

/-- The state of the Go process before any neuron is created. -/
def startWorld : World :=
  { started := false, neurons := [], cntlChans := [], nextChan := 0 }

/-- New, src/neuron.go lines 58-69: allocates the control channel and
registers it, sets connected false and state stopped, appends the neuron to
the registry, sets tickChan to the channel of time.After(time.Second), stores
the threshold, and increments activity from its zero value to 1 (the comment
in the source: count creation as activity, so WaitForQuiet() will work). -/
def New (w : World) (threshold : Int) : World × Neuron :=
  let cntl := w.nextChan
  let tick := w.nextChan + 1
  let n : Neuron :=
    { cntlChan := cntl
      dendriteChans := []
      axonChans := []
      connected := false
      state := Nstate.stopped
      sigma := 0
      threshold := threshold
      lastInChan := none
      waitForChan := none
      tickChan := tick
      activity := 1 }
  ({ w with
      nextChan := w.nextChan + 2
      cntlChans := w.cntlChans ++ [cntl]
      neurons := w.neurons ++ [n] }, n)

/-- NewNeurons, src/neuron.go lines 72-78: calls New num times, collecting
the neurons in creation order. -/
def NewNeurons (w : World) (num : Nat) (threshold : Int) : World × List Neuron :=
  match num with
  | 0 => (w, [])
  | Nat.succ m =>
    let p := New w threshold
    let q := NewNeurons p.1 m threshold
    (q.1, p.2 :: q.2)

/-- Pointwise update of the element at one position of a list; positions past
the end are left untouched.  This models an assignment through a Go pointer
to the registered neuron at that position. -/
def updateAt {α : Type} : List α → Nat → (α → α) → List α
  | [], _, _ => []
  | x :: xs, 0, f => f x :: xs
  | x :: xs, Nat.succ i, f => x :: updateAt xs i f

/-- Apply a field mutation to the neuron at one registry position. -/
def updateNeuronAt (w : World) (i : Nat) (f : Neuron → Neuron) : World :=
  { w with neurons := updateAt w.neurons i f }

/-- Number of dendrite (input) channels of the neuron at a registry position. -/
def inCount (w : World) (i : Nat) : Nat :=
  (w.neurons[i]?.map fun n => n.dendriteChans.length).getD 0

/-- Number of axon (output) channels of the neuron at a registry position. -/
def outCount (w : World) (i : Nat) : Nat :=
  (w.neurons[i]?.map fun n => n.axonChans.length).getD 0

/-- Link, src/neuron.go lines 106-113: make a fresh channel, append it to the
receiver's dendrites and to the sender's axons, marking both connected. -/
def Link (w : World) (nIdx toIdx : Nat) : World :=
  let a := w.nextChan
  let w1 : World := { w with nextChan := a + 1 }
  let w2 := updateNeuronAt w1 toIdx fun t =>
    { t with dendriteChans := t.dendriteChans ++ [a], connected := true }
  updateNeuronAt w2 nIdx fun s =>
    { s with axonChans := s.axonChans ++ [a], connected := true }

/-- One iteration of the loop of LinkOneToMany, src/neuron.go lines 129-135:
a fresh channel a; v.connected set; a appended to n's axons and n.connected
set; a appended to v's dendrites. -/
def oneToManyStep (w : World) (nIdx v : Nat) : World :=
  let a := w.nextChan
  let w1 : World := { w with nextChan := a + 1 }
  let w2 := updateNeuronAt w1 v fun t => { t with connected := true }
  let w3 := updateNeuronAt w2 nIdx fun s =>
    { s with axonChans := s.axonChans ++ [a], connected := true }
  updateNeuronAt w3 v fun t => { t with dendriteChans := t.dendriteChans ++ [a] }

/-- LinkOneToMany, src/neuron.go lines 128-137: iterate oneToManyStep over
the list of receivers. -/
def LinkOneToMany (w : World) (nIdx : Nat) (many : List Nat) : World :=
  match many with
  | [] => w
  | v :: rest => LinkOneToMany (oneToManyStep w nIdx v) nIdx rest

/-- One iteration of the loop of LinkManyToOne, src/neuron.go lines 117-123:
a fresh channel a appended to v's axons (v.connected set) and to n's
dendrites (n.connected set). -/
def manyToOneStep (w : World) (nIdx v : Nat) : World :=
  let a := w.nextChan
  let w1 : World := { w with nextChan := a + 1 }
  let w2 := updateNeuronAt w1 v fun s =>
    { s with axonChans := s.axonChans ++ [a], connected := true }
  updateNeuronAt w2 nIdx fun t =>
    { t with dendriteChans := t.dendriteChans ++ [a], connected := true }

/-- LinkManyToOne, src/neuron.go lines 116-125: iterate manyToOneStep over
the list of senders. -/
def LinkManyToOne (w : World) (nIdx : Nat) (many : List Nat) : World :=
  match many with
  | [] => w
  | v :: rest => LinkManyToOne (manyToOneStep w nIdx v) nIdx rest

/-- Outcome of a Fire call: either no channel operation at all, or a blocking
send of the impulse on one specific channel. -/
inductive FireAction
  | noop
  | send (ch : Nat) (impulse : Int)
deriving DecidableEq, Repr

/-- Fire, src/neuron.go lines 140-148: when the target's state field is
running and it has at least one dendrite, send the impulse on dendrite 0
(a blocking send); otherwise do nothing.  The method mutates no field and
returns the receiver, modelled by the first component. -/
def Fire (n : Neuron) (impulse : Int) : Neuron × FireAction :=
  if n.state = Nstate.running then
    match n.dendriteChans with
    | [] => (n, FireAction.noop)
    | c :: _ => (n, FireAction.send c impulse)
  else (n, FireAction.noop)

/-- WaitForQuiet, src/neuron.go lines 164-171: lazily allocate waitForChan
(here: install the given fresh channel identifier) and then block receiving
on it.  Only the field effect is modelled; the blocking receive is the
pending wait. -/
def WaitForQuiet (n : Neuron) (fresh : Nat) : Neuron :=
  match n.waitForChan with
  | none => { n with waitForChan := some fresh }
  | some _ => n

/-- The field effect of Run, src/neuron.go lines 191-252: when the state
field is stopped, a goroutine is launched and the state field is set to
running; otherwise nothing happens. -/
def Run (n : Neuron) : Neuron :=
  if n.state = Nstate.stopped then { n with state := Nstate.running } else n

/-- Go reflect.Value.String() applied to the value received from the control
channel (src/neuron.go line 221): the received value has type cntlMsg, whose
reflect kind is Struct, not String, so the call returns the placeholder text
for the type and never the cmd field. -/
def reflectValueString (_ : CntlMsg) : String :=
  "<neuron.cntlMsg Value>"

/-- One ready source of the composite wait set built in Run, src/neuron.go
lines 211-217: index 0 is the control channel, index 1 the timer channel, and
index i+2 the i-th dendrite channel (const fixedCases = 2). -/
inductive Event
  | cntl (m : CntlMsg)
  | tick
  | dendrite (i : Nat) (v : Int)
deriving DecidableEq, Repr

/-- Outcome of one execution of the goroutine body: the neuron's private
fields after the step, the sends performed on axon channels in order, whether
a send on waitForChan was performed, and whether the return statement of the
stop case ran. -/
structure StepResult where
  neuron : Neuron
  emissions : List (Nat × Int)
  quietSignal : Bool
  earlyReturn : Bool
deriving DecidableEq, Repr

/-- The dendrite branch of the goroutine body, src/neuron.go lines 236-244:
increment activity, add the received value to sigma, and if sigma now exceeds
the threshold send the value 1 on every axon channel in order.  Sigma is not
reset. -/
def reactImpulse (n : Neuron) (v : Int) : Neuron × List (Nat × Int) :=
  let n1 := { n with activity := n.activity + 1, sigma := n.sigma + v }
  (n1, if n1.threshold < n1.sigma then n1.axonChans.map fun c => (c, (1 : Int)) else [])

/-- The tail of the goroutine body, src/neuron.go lines 245-247: when the
neuron has at least one dendrite, assign lastInChan from dendriteChans at
position chosen — the composite wait-set index, which counts the two fixed
cases.  An out-of-range index panics in Go, modelled as none. -/
def stepFinish (n : Neuron) (chosen : Nat) (ems : List (Nat × Int)) (q : Bool) :
    Option StepResult :=
  if 0 < n.dendriteChans.length then
    match n.dendriteChans[chosen]? with
    | some c =>
      some { neuron := { n with lastInChan := some c }, emissions := ems,
             quietSignal := q, earlyReturn := false }
    | none => none
  else
    some { neuron := n, emissions := ems, quietSignal := q, earlyReturn := false }

/-- One execution of the goroutine body, src/neuron.go lines 196-251, on the
event chosen by reflect.Select.  Control case (chosen = 0): cmd is
reflectValueString of the received struct; the status case only logs, the
stop case returns early, any other text falls through.  Timer case
(chosen = 1): when activity is positive, send on waitForChan if it is
non-nil, then reset activity to 0.  Dendrite case: reactImpulse.  All
non-returning paths end in the lastInChan assignment of stepFinish. -/
def runStep (n : Neuron) (e : Event) : Option StepResult :=
  match e with
  | Event.cntl m =>
    if reflectValueString m = "stop" then
      some { neuron := n, emissions := [], quietSignal := false, earlyReturn := true }
    else
      stepFinish n 0 [] false
  | Event.tick =>
    if 0 < n.activity then
      stepFinish { n with activity := 0 } 1 [] n.waitForChan.isSome
    else
      stepFinish n 1 [] false
  | Event.dendrite i v =>
    let p := reactImpulse n v
    stepFinish p.1 (i + 2) p.2 false

/-- The goroutine launched by Run, src/neuron.go lines 196-251, applied to
the stream of events that become ready for it: the body contains no loop, so
at most the first event is processed and then the function ends. -/
def goroutineRun (n : Neuron) (events : List Event) : List (Option StepResult) :=
  match events with
  | [] => []
  | e :: _ => [runStep n e]

/-- Iterated processing of a list of impulse deliveries through the dendrite
branch (src/neuron.go lines 236-244), returning the final neuron and the
per-delivery emission lists. -/
def deliverAll (n : Neuron) (vs : List Int) : Neuron × List (List (Nat × Int)) :=
  match vs with
  | [] => (n, [])
  | v :: rest =>
    let p := reactImpulse n v
    let q := deliverAll p.1 rest
    (q.1, p.2 :: q.2)

/-- Cumulative number of values delivered by the channel time.After(time.Second)
of src/neuron.go line 66, t seconds after creation: time.After delivers a
single value at t = 1 and never delivers again. -/
def tickDeliveries (t : Nat) : Nat :=
  if 1 ≤ t then 1 else 0

/-- A concrete running neuron with three dendrites and two axons, used to
instantiate hypotheses of the theorems below. -/
def sampleNeuron : Neuron :=
  { cntlChan := 0
    dendriteChans := [5, 6, 7]
    axonChans := [10, 11]
    connected := true
    state := Nstate.running
    sigma := 0
    threshold := 1
    lastInChan := none
    waitForChan := some 9
    tickChan := 1
    activity := 1 }

/-- A concrete registry of three fresh neurons, used to instantiate the
link-topology theorem. -/
def threeWorld : World :=
  (NewNeurons startWorld 3 0).1

/-- updateAt never changes the length of the list. -/
theorem updateAt_length {α : Type} (l : List α) (i : Nat) (f : α → α) :
    (updateAt l i f).length = l.length := by
  induction l generalizing i with
  | nil => rfl
  | cons x xs ih =>
    cases i with
    | zero => rfl
    | succ j => simp [updateAt, ih]

/-- updateAt leaves every other position untouched. -/
theorem updateAt_getElem?_ne {α : Type} (l : List α) (i : Nat) (f : α → α)
    (j : Nat) (h : j ≠ i) : (updateAt l i f)[j]? = l[j]? := by
  induction l generalizing i j with
  | nil => rfl
  | cons x xs ih =>
    cases i with
    | zero =>
      cases j with
      | zero => exact absurd rfl h
      | succ m => simp [updateAt]
    | succ k =>
      cases j with
      | zero => simp [updateAt]
      | succ m =>
        simp only [updateAt, List.getElem?_cons_succ]
        exact ih k m (fun hh => h (by rw [hh]))

/-- updateAt applies the mutation at the addressed position. -/
theorem updateAt_getElem?_self {α : Type} (l : List α) (i : Nat) (f : α → α) :
    (updateAt l i f)[i]? = l[i]?.map f := by
  induction l generalizing i with
  | nil => rfl
  | cons x xs ih =>
    cases i with
    | zero => simp [updateAt]
    | succ j => simpa [updateAt] using ih j

/-- The lastInChan assignment changes no field other than lastInChan. -/
theorem stepFinish_eq_some {n : Neuron} {chosen : Nat} {ems : List (Nat × Int)}
    {q : Bool} {r : StepResult} (h : stepFinish n chosen ems q = some r) :
    (r.neuron = n ∨ r.neuron = { n with lastInChan := n.dendriteChans[chosen]? }) ∧
    r.emissions = ems ∧ r.quietSignal = q ∧ r.earlyReturn = false := by
  unfold stepFinish at h
  split at h
  · split at h
    next c hc =>
      cases h
      refine ⟨Or.inr ?_, rfl, rfl, rfl⟩
      simp [hc]
    next => cases h
  · cases h
    exact ⟨Or.inl rfl, rfl, rfl, rfl⟩

/-- A completed step never writes the state field. -/
theorem runStep_state {n : Neuron} {e : Event} {r : StepResult}
    (h : runStep n e = some r) : r.neuron.state = n.state := by
  cases e with
  | cntl m =>
    simp only [runStep] at h
    split at h
    · cases h; rfl
    · rcases (stepFinish_eq_some h).1 with h1 | h1 <;> rw [h1]
  | tick =>
    simp only [runStep] at h
    split at h
    · rcases (stepFinish_eq_some h).1 with h1 | h1 <;> rw [h1]
    · rcases (stepFinish_eq_some h).1 with h1 | h1 <;> rw [h1]
  | dendrite i v =>
    simp only [runStep] at h
    rcases (stepFinish_eq_some h).1 with h1 | h1 <;> rw [h1] <;> rfl

/-- Every processed delivery adds the received value to sigma and sigma is
never reset, so after a sequence of deliveries sigma has grown by its sum. -/
theorem deliverAll_sigma (vs : List Int) (n : Neuron) :
    (deliverAll n vs).1.sigma = n.sigma + vs.sum := by
  induction vs generalizing n with
  | nil => simp [deliverAll]
  | cons v rest ih =>
    simp only [deliverAll]
    rw [ih]
    simp [reactImpulse, add_assoc]

/-- The emission list of the j-th delivery (0-indexed): the value 1 is sent
on every axon channel exactly when sigma after that delivery exceeds the
threshold, and nothing is sent otherwise. -/
theorem deliverAll_emissions (vs : List Int) (n : Neuron) (j : Nat)
    (hj : j < vs.length) :
    (deliverAll n vs).2[j]? =
      some (if n.threshold < n.sigma + (vs.take (j + 1)).sum then
              n.axonChans.map fun c => (c, (1 : Int))
            else []) := by
  induction vs generalizing n j with
  | nil => simp at hj
  | cons v rest ih =>
    cases j with
    | zero =>
      simp [deliverAll, reactImpulse]
    | succ m =>
      have hm : m < rest.length := by simpa using hj
      simp only [deliverAll, List.getElem?_cons_succ]
      rw [ih (reactImpulse n v).1 m hm]
      simp [reactImpulse, List.take_succ_cons, add_assoc]

/-- C1: the claim says the multiplex-and-react step is executed repeatedly,
one message per step, until a stop command is processed.  In the source the
goroutine body launched by Run contains no loop: whatever the event stream
holds, exactly one step is performed (when at least one event arrives) and
the scheduling context then ends, stop command or not. -/
theorem run_single_step (n : Neuron) (events : List Event) :
    (goroutineRun n events).length = min 1 events.length := by
  cases events with
  | nil => simp [goroutineRun]
  | cons e es =>
    show (1 : Nat) = min 1 (es.length + 1)
    omega

/-- C2: with accumulator initially 0, when the running sum of the delivered
impulses first exceeds the threshold on the k-th delivery (1-indexed), no
delivery before the k-th emits anything, and the k-th delivery emits the
value 1 exactly once on every axon channel, in order. -/
theorem threshold_first_crossing (n : Neuron) (vs : List Int) (k : Nat)
    (h0 : n.sigma = 0) (hk1 : 1 ≤ k) (hklen : k ≤ vs.length)
    (hbefore : ∀ j, j < k → (vs.take j).sum ≤ n.threshold)
    (hcross : n.threshold < (vs.take k).sum) :
    (∀ j, j + 1 < k → (deliverAll n vs).2[j]? = some []) ∧
    (deliverAll n vs).2[k - 1]? = some (n.axonChans.map fun c => (c, (1 : Int))) := by
  constructor
  · intro j hj
    rw [deliverAll_emissions vs n j (by omega)]
    rw [h0, zero_add]
    rw [if_neg (not_lt.mpr (hbefore (j + 1) hj))]
  · have hk : k - 1 + 1 = k := by omega
    rw [deliverAll_emissions vs n (k - 1) (by omega)]
    rw [h0, zero_add, hk, if_pos hcross]

/-- Concrete instance of threshold_first_crossing: threshold 1, impulses
1 then 1, first crossing on the second delivery, axons 10 and 11. -/
theorem threshold_first_crossing_witness :
    (deliverAll sampleNeuron [1, 1]).2[1]? = some [(10, 1), (11, 1)] :=
  (threshold_first_crossing sampleNeuron [1, 1] 2 (by decide) (by decide) (by decide)
    (by decide) (by decide)).2

/-- C3: with accumulator initially 0, after any processed sequence of
deliveries sigma equals the sum of the delivered values; each single
delivery only adds its value to sigma, so crossing the threshold and firing
never resets the accumulator. -/
theorem accumulator_is_total_sum (n : Neuron) (vs : List Int) (h : n.sigma = 0) :
    (deliverAll n vs).1.sigma = vs.sum ∧
    ∀ (m : Neuron) (v : Int), (reactImpulse m v).1.sigma = m.sigma + v := by
  refine ⟨?_, fun m v => rfl⟩
  rw [deliverAll_sigma, h, zero_add]

/-- Concrete instance of accumulator_is_total_sum: deliveries 1, 2, 3 leave
sigma at 6 even though the threshold 1 was crossed on the second delivery. -/
theorem accumulator_is_total_sum_witness :
    (deliverAll sampleNeuron [1, 2, 3]).1.sigma = 6 :=
  (accumulator_is_total_sum sampleNeuron [1, 2, 3] (by decide)).1

/-- C5: the claim says the timer fires once per 1-second period, on every
period.  The channel installed at creation is time.After(time.Second), which
delivers exactly one value, at t = 1, and never becomes ready again. -/
theorem tick_chan_single_shot :
    (∀ t, tickDeliveries t ≤ 1) ∧ tickDeliveries 1 = 1 ∧ tickDeliveries 2 = 1 := by
  refine ⟨fun t => ?_, rfl, rfl⟩
  unfold tickDeliveries
  split <;> omega

/-- C4: the claim says a pending WaitForQuiet unblocks after a full timer
period of zero activity, and not when the actor reports activity.  The timer
branch of the goroutine body does the opposite: at a tick it sends the
quiescence signal exactly when activity is positive, and does nothing at all
when activity is 0. -/
theorem quiescence_signal_inverted (n : Neuron)
    (hd : n.dendriteChans = []) (hw : n.waitForChan.isSome = true) :
    (0 < n.activity →
      runStep n Event.tick =
        some { neuron := { n with activity := 0 }, emissions := [],
               quietSignal := true, earlyReturn := false }) ∧
    (n.activity = 0 →
      runStep n Event.tick =
        some { neuron := n, emissions := [], quietSignal := false,
               earlyReturn := false }) := by
  constructor
  · intro ha
    simp only [runStep, if_pos ha]
    unfold stepFinish
    simp [hd, hw]
  · intro ha
    have hna : ¬ 0 < n.activity := by rw [ha]; exact lt_irrefl 0
    simp only [runStep, if_neg hna]
    unfold stepFinish
    simp [hd]

/-- Concrete instance of quiescence_signal_inverted: a fresh neuron (seeded
with activity 1 and zero impulses ever received) with a pending WaitForQuiet
is signalled at the very first tick. -/
theorem quiescence_signal_inverted_witness :
    runStep (WaitForQuiet (New startWorld 0).2 99) Event.tick =
      some { neuron := { WaitForQuiet (New startWorld 0).2 99 with activity := 0 },
             emissions := [], quietSignal := true, earlyReturn := false } :=
  (quiescence_signal_inverted (WaitForQuiet (New startWorld 0).2 99) (by decide)
    (by decide)).1 (by decide)

/-- C7: Fire on a neuron whose state field is stopped, or with no dendrites,
performs no channel operation and mutates nothing (the no-op is silent, no
error value exists); otherwise it delivers the impulse on the first dendrite
only. -/
theorem fire_noop_or_first (n : Neuron) (v : Int) :
    (Fire n v).1 = n ∧
    ((n.state = Nstate.stopped ∨ n.dendriteChans = []) →
      (Fire n v).2 = FireAction.noop) ∧
    (∀ c rest, n.state = Nstate.running → n.dendriteChans = c :: rest →
      (Fire n v).2 = FireAction.send c v) := by
  refine ⟨?_, ?_, ?_⟩
  · unfold Fire
    split
    · cases hd : n.dendriteChans <;> rfl
    · rfl
  · rintro (h | h)
    · unfold Fire
      rw [if_neg (by rw [h]; simp)]
    · unfold Fire
      split
      · rw [h]
      · rfl
  · intro c rest hs hd
    unfold Fire
    rw [if_pos hs, hd]

/-- Concrete instance of fire_noop_or_first: a freshly created (stopped)
neuron is not fired at. -/
theorem fire_noop_or_first_witness :
    (Fire (New startWorld 4).2 9).2 = FireAction.noop :=
  (fire_noop_or_first (New startWorld 4).2 9).2.1 (Or.inl (by decide))

/-- C9: in the dendrite branch the lastInChan assignment indexes
dendriteChans with the composite wait-set index chosen = i + 2, which counts
the two fixed control and timer cases.  For an impulse on input i the step
panics whenever i + 2 is past the end of the list (so for inputs in the last
two positions), and otherwise records the channel at position i + 2, which
for a duplicate-free channel list is never the channel that produced the
impulse. -/
theorem lastInChan_misindexed (n : Neuron) (i : Nat) (v : Int)
    (hi : i < n.dendriteChans.length) :
    (n.dendriteChans.length ≤ i + 2 → runStep n (Event.dendrite i v) = none) ∧
    (i + 2 < n.dendriteChans.length →
      ∃ r, runStep n (Event.dendrite i v) = some r ∧
        r.neuron.lastInChan = n.dendriteChans[i + 2]? ∧
        (n.dendriteChans.Nodup → n.dendriteChans[i + 2]? ≠ n.dendriteChans[i]?)) := by
  have hpos : 0 < n.dendriteChans.length := Nat.lt_of_le_of_lt (Nat.zero_le i) hi
  have hfst : (reactImpulse n v).1.dendriteChans = n.dendriteChans := rfl
  constructor
  · intro hge
    simp only [runStep]
    unfold stepFinish
    rw [hfst, if_pos hpos, List.getElem?_eq_none hge]
  · intro h2
    have hstep : runStep n (Event.dendrite i v) =
        some { neuron := { (reactImpulse n v).1 with
                             lastInChan := some (n.dendriteChans.get ⟨i + 2, h2⟩) },
               emissions := (reactImpulse n v).2, quietSignal := false,
               earlyReturn := false } := by
      simp only [runStep]
      unfold stepFinish
      rw [hfst, if_pos hpos, List.getElem?_eq_getElem h2]
      rfl
    refine ⟨_, hstep, ?_, ?_⟩
    · rw [List.getElem?_eq_getElem h2]
      rfl
    · intro hnd heq
      have := List.getElem?_inj h2 hnd heq
      omega

/-- Concrete instance of lastInChan_misindexed on a neuron with three
dendrites: an impulse on input 1 panics (1 + 2 is out of range), and an
impulse on input 0 records the channel of input 2 instead of input 0. -/
theorem lastInChan_misindexed_witness :
    runStep sampleNeuron (Event.dendrite 1 4) = none ∧
    ∃ r, runStep sampleNeuron (Event.dendrite 0 4) = some r ∧
      r.neuron.lastInChan = sampleNeuron.dendriteChans[2]? ∧
      (sampleNeuron.dendriteChans.Nodup →
        sampleNeuron.dendriteChans[2]? ≠ sampleNeuron.dendriteChans[0]?) :=
  ⟨(lastInChan_misindexed sampleNeuron 1 4 (by decide)).1 (by decide),
   (lastInChan_misindexed sampleNeuron 0 4 (by decide)).2 (by decide)⟩

/-- C10: processing a stop control message leaves the state field at running
(it is never written back to stopped — the stop case of the switch is in
fact unreachable, because cmd is the reflect placeholder text of the struct
value), the scheduling context performs no further step because the body has
no loop, and a subsequent Fire passes the running-state check and attempts a
blocking send on the first dendrite instead of a silent no-op. -/
theorem stop_keeps_state_running (n : Neuron) (c : Nat) (rest : List Nat) (v : Int)
    (hs : n.state = Nstate.running) (hd : n.dendriteChans = c :: rest) :
    (∀ e r, runStep n e = some r → r.neuron.state = Nstate.running) ∧
    ∃ r, runStep n (Event.cntl { cmd := "stop" }) = some r ∧
      goroutineRun n [Event.cntl { cmd := "stop" }] = [some r] ∧
      r.earlyReturn = false ∧
      r.neuron.state = Nstate.running ∧
      (Fire r.neuron v).2 = FireAction.send c v := by
  refine ⟨fun e r h => (runStep_state h).trans hs, ?_⟩
  have hstep : runStep n (Event.cntl { cmd := "stop" }) =
      some { neuron := { n with lastInChan := some c }, emissions := [],
             quietSignal := false, earlyReturn := false } := by
    simp only [runStep]
    rw [if_neg (by decide)]
    unfold stepFinish
    rw [hd]
    simp
  refine ⟨_, hstep, by simp [goroutineRun, hstep], rfl, hs, ?_⟩
  show (Fire { n with lastInChan := some c } v).2 = FireAction.send c v
  simp [Fire, hs, hd]

/-- Effect of one iteration of LinkOneToMany on the channel counts, for the
sender A and receiver v at distinct in-range registry positions: A gains one
axon, v gains one dendrite, nothing else changes. -/
theorem oneToManyStep_counts (w : World) (A v : Nat)
    (hA : A < w.neurons.length) (hv : v < w.neurons.length) (hAv : A ≠ v) :
    (oneToManyStep w A v).neurons.length = w.neurons.length ∧
    outCount (oneToManyStep w A v) A = outCount w A + 1 ∧
    inCount (oneToManyStep w A v) A = inCount w A ∧
    inCount (oneToManyStep w A v) v = inCount w v + 1 ∧
    outCount (oneToManyStep w A v) v = outCount w v ∧
    ∀ j, j ≠ A → j ≠ v →
      inCount (oneToManyStep w A v) j = inCount w j ∧
      outCount (oneToManyStep w A v) j = outCount w j := by
  have hsA : w.neurons[A]? = some w.neurons[A] := List.getElem?_eq_getElem hA
  have htv : w.neurons[v]? = some w.neurons[v] := List.getElem?_eq_getElem hv
  have hvA : v ≠ A := Ne.symm hAv
  refine ⟨by simp [oneToManyStep, updateNeuronAt, updateAt_length], ?_, ?_, ?_, ?_, ?_⟩
  · simp only [oneToManyStep, updateNeuronAt, outCount]
    rw [updateAt_getElem?_ne _ _ _ _ hAv, updateAt_getElem?_self,
      updateAt_getElem?_ne _ _ _ _ hAv, hsA]
    simp
  · simp only [oneToManyStep, updateNeuronAt, inCount]
    rw [updateAt_getElem?_ne _ _ _ _ hAv, updateAt_getElem?_self,
      updateAt_getElem?_ne _ _ _ _ hAv, hsA]
    simp
  · simp only [oneToManyStep, updateNeuronAt, inCount]
    rw [updateAt_getElem?_self, updateAt_getElem?_ne _ _ _ _ hvA,
      updateAt_getElem?_self, htv]
    simp
  · simp only [oneToManyStep, updateNeuronAt, outCount]
    rw [updateAt_getElem?_self, updateAt_getElem?_ne _ _ _ _ hvA,
      updateAt_getElem?_self, htv]
    simp
  · intro j hjA hjv
    constructor
    · simp only [oneToManyStep, updateNeuronAt, inCount]
      rw [updateAt_getElem?_ne _ _ _ _ hjv, updateAt_getElem?_ne _ _ _ _ hjA,
        updateAt_getElem?_ne _ _ _ _ hjv]
    · simp only [oneToManyStep, updateNeuronAt, outCount]
      rw [updateAt_getElem?_ne _ _ _ _ hjv, updateAt_getElem?_ne _ _ _ _ hjA,
        updateAt_getElem?_ne _ _ _ _ hjv]

/-- Effect of one iteration of LinkManyToOne on the channel counts, for the
receiver A and sender v at distinct in-range registry positions: v gains one
axon, A gains one dendrite, nothing else changes. -/
theorem manyToOneStep_counts (w : World) (A v : Nat)
    (hA : A < w.neurons.length) (hv : v < w.neurons.length) (hAv : A ≠ v) :
    (manyToOneStep w A v).neurons.length = w.neurons.length ∧
    inCount (manyToOneStep w A v) A = inCount w A + 1 ∧
    outCount (manyToOneStep w A v) A = outCount w A ∧
    outCount (manyToOneStep w A v) v = outCount w v + 1 ∧
    inCount (manyToOneStep w A v) v = inCount w v ∧
    ∀ j, j ≠ A → j ≠ v →
      inCount (manyToOneStep w A v) j = inCount w j ∧
      outCount (manyToOneStep w A v) j = outCount w j := by
  have hsA : w.neurons[A]? = some w.neurons[A] := List.getElem?_eq_getElem hA
  have htv : w.neurons[v]? = some w.neurons[v] := List.getElem?_eq_getElem hv
  have hvA : v ≠ A := Ne.symm hAv
  refine ⟨by simp [manyToOneStep, updateNeuronAt, updateAt_length], ?_, ?_, ?_, ?_, ?_⟩
  · simp only [manyToOneStep, updateNeuronAt, inCount]
    rw [updateAt_getElem?_self, updateAt_getElem?_ne _ _ _ _ hAv, hsA]
    simp
  · simp only [manyToOneStep, updateNeuronAt, outCount]
    rw [updateAt_getElem?_self, updateAt_getElem?_ne _ _ _ _ hAv, hsA]
    simp
  · simp only [manyToOneStep, updateNeuronAt, outCount]
    rw [updateAt_getElem?_ne _ _ _ _ hvA, updateAt_getElem?_self, htv]
    simp
  · simp only [manyToOneStep, updateNeuronAt, inCount]
    rw [updateAt_getElem?_ne _ _ _ _ hvA, updateAt_getElem?_self, htv]
    simp
  · intro j hjA hjv
    constructor
    · simp only [manyToOneStep, updateNeuronAt, inCount]
      rw [updateAt_getElem?_ne _ _ _ _ hjA, updateAt_getElem?_ne _ _ _ _ hjv]
    · simp only [manyToOneStep, updateNeuronAt, outCount]
      rw [updateAt_getElem?_ne _ _ _ _ hjA, updateAt_getElem?_ne _ _ _ _ hjv]

/-- Aggregate effect of LinkOneToMany on the channel counts, by induction on
the receiver list. -/
theorem linkOneToMany_counts (A : Nat) (many : List Nat) :
    ∀ (w : World), A < w.neurons.length → (∀ b ∈ many, b < w.neurons.length) →
    A ∉ many → many.Nodup →
    (LinkOneToMany w A many).neurons.length = w.neurons.length ∧
    outCount (LinkOneToMany w A many) A = outCount w A + many.length ∧
    inCount (LinkOneToMany w A many) A = inCount w A ∧
    (∀ b ∈ many, inCount (LinkOneToMany w A many) b = inCount w b + 1 ∧
                 outCount (LinkOneToMany w A many) b = outCount w b) ∧
    ∀ j, j ≠ A → j ∉ many →
      inCount (LinkOneToMany w A many) j = inCount w j ∧
      outCount (LinkOneToMany w A many) j = outCount w j := by
  induction many with
  | nil =>
    intro w hA _ _ _
    exact ⟨rfl, by simp [LinkOneToMany], rfl, by simp, fun j _ _ => ⟨rfl, rfl⟩⟩
  | cons v rest ih =>
    intro w hA hb hAm hnd
    have hv : v < w.neurons.length := hb v (List.mem_cons_self v rest)
    have hAv : A ≠ v := fun h => hAm (h ▸ List.mem_cons_self v rest)
    obtain ⟨hlen, ho, hiA, hiv, hov, hother⟩ := oneToManyStep_counts w A v hA hv hAv
    have hA2 : A < (oneToManyStep w A v).neurons.length := by rw [hlen]; exact hA
    have hb2 : ∀ b ∈ rest, b < (oneToManyStep w A v).neurons.length := by
      intro b m
      rw [hlen]
      exact hb b (List.mem_cons_of_mem v m)
    have hAm2 : A ∉ rest := fun m => hAm (List.mem_cons_of_mem v m)
    have hvrest : v ∉ rest := (List.nodup_cons.mp hnd).1
    obtain ⟨ihlen, iho, ihiA, ihb, ihother⟩ :=
      ih (oneToManyStep w A v) hA2 hb2 hAm2 (List.nodup_cons.mp hnd).2
    have hstep : LinkOneToMany w A (v :: rest) =
        LinkOneToMany (oneToManyStep w A v) A rest := rfl
    rw [hstep]
    refine ⟨ihlen.trans hlen, ?_, ihiA.trans hiA, ?_, ?_⟩
    · rw [iho, ho]
      simp only [List.length_cons]
      omega
    · intro b hbm
      rcases List.mem_cons.mp hbm with rfl | hbm2
      · obtain ⟨e1, e2⟩ := ihother b (Ne.symm hAv) hvrest
        exact ⟨e1.trans hiv, e2.trans hov⟩
      · obtain ⟨h1, h2⟩ := ihb b hbm2
        have hbv : b ≠ v := fun h => hvrest (h ▸ hbm2)
        have hbA : b ≠ A := fun h => hAm (h ▸ hbm)
        obtain ⟨e1, e2⟩ := hother b hbA hbv
        exact ⟨h1.trans (by rw [e1]), h2.trans (by rw [e2])⟩
    · intro j hjA hjm
      have hjv : j ≠ v := fun h => hjm (h ▸ List.mem_cons_self v rest)
      have hjrest : j ∉ rest := fun m => hjm (List.mem_cons_of_mem v m)
      obtain ⟨h1, h2⟩ := ihother j hjA hjrest
      obtain ⟨e1, e2⟩ := hother j hjA hjv
      exact ⟨h1.trans e1, h2.trans e2⟩

/-- Aggregate effect of LinkManyToOne on the channel counts, by induction on
the sender list. -/
theorem linkManyToOne_counts (A : Nat) (many : List Nat) :
    ∀ (w : World), A < w.neurons.length → (∀ b ∈ many, b < w.neurons.length) →
    A ∉ many → many.Nodup →
    (LinkManyToOne w A many).neurons.length = w.neurons.length ∧
    inCount (LinkManyToOne w A many) A = inCount w A + many.length ∧
    outCount (LinkManyToOne w A many) A = outCount w A ∧
    (∀ b ∈ many, outCount (LinkManyToOne w A many) b = outCount w b + 1 ∧
                 inCount (LinkManyToOne w A many) b = inCount w b) ∧
    ∀ j, j ≠ A → j ∉ many →
      inCount (LinkManyToOne w A many) j = inCount w j ∧
      outCount (LinkManyToOne w A many) j = outCount w j := by
  induction many with
  | nil =>
    intro w hA _ _ _
    exact ⟨rfl, by simp [LinkManyToOne], rfl, by simp, fun j _ _ => ⟨rfl, rfl⟩⟩
  | cons v rest ih =>
    intro w hA hb hAm hnd
    have hv : v < w.neurons.length := hb v (List.mem_cons_self v rest)
    have hAv : A ≠ v := fun h => hAm (h ▸ List.mem_cons_self v rest)
    obtain ⟨hlen, hiA, hoA, hov, hiv, hother⟩ := manyToOneStep_counts w A v hA hv hAv
    have hA2 : A < (manyToOneStep w A v).neurons.length := by rw [hlen]; exact hA
    have hb2 : ∀ b ∈ rest, b < (manyToOneStep w A v).neurons.length := by
      intro b m
      rw [hlen]
      exact hb b (List.mem_cons_of_mem v m)
    have hAm2 : A ∉ rest := fun m => hAm (List.mem_cons_of_mem v m)
    have hvrest : v ∉ rest := (List.nodup_cons.mp hnd).1
    obtain ⟨ihlen, ihi, ihoA, ihb, ihother⟩ :=
      ih (manyToOneStep w A v) hA2 hb2 hAm2 (List.nodup_cons.mp hnd).2
    have hstep : LinkManyToOne w A (v :: rest) =
        LinkManyToOne (manyToOneStep w A v) A rest := rfl
    rw [hstep]
    refine ⟨ihlen.trans hlen, ?_, ihoA.trans hoA, ?_, ?_⟩
    · rw [ihi, hiA]
      simp only [List.length_cons]
      omega
    · intro b hbm
      rcases List.mem_cons.mp hbm with rfl | hbm2
      · obtain ⟨e1, e2⟩ := ihother b (Ne.symm hAv) hvrest
        exact ⟨e2.trans hov, e1.trans hiv⟩
      · obtain ⟨h1, h2⟩ := ihb b hbm2
        have hbv : b ≠ v := fun h => hvrest (h ▸ hbm2)
        have hbA : b ≠ A := fun h => hAm (h ▸ hbm)
        obtain ⟨e1, e2⟩ := hother b hbA hbv
        exact ⟨h1.trans (by rw [e2]), h2.trans (by rw [e1])⟩
    · intro j hjA hjm
      have hjv : j ≠ v := fun h => hjm (h ▸ List.mem_cons_self v rest)
      have hjrest : j ∉ rest := fun m => hjm (List.mem_cons_of_mem v m)
      obtain ⟨h1, h2⟩ := ihother j hjA hjrest
      obtain ⟨e1, e2⟩ := hother j hjA hjv
      exact ⟨h1.trans e1, h2.trans e2⟩

/-- C6: after LinkOneToMany(A, many) the sender A's output count has grown
by the length of many and each listed receiver's input count by exactly 1;
after LinkManyToOne(A, many) the receiver A's input count has grown by the
length of many and each listed sender's output count by exactly 1; in both
cases no other registered neuron's input or output count changes (stated for
distinct in-range registry positions). -/
theorem link_topology_counts (w : World) (A : Nat) (many : List Nat)
    (h1 : A < w.neurons.length) (h2 : ∀ b ∈ many, b < w.neurons.length)
    (h3 : A ∉ many) (h4 : many.Nodup) :
    (outCount (LinkOneToMany w A many) A = outCount w A + many.length ∧
     inCount (LinkOneToMany w A many) A = inCount w A ∧
     (∀ b ∈ many, inCount (LinkOneToMany w A many) b = inCount w b + 1 ∧
                  outCount (LinkOneToMany w A many) b = outCount w b) ∧
     ∀ j, j ≠ A → j ∉ many →
       inCount (LinkOneToMany w A many) j = inCount w j ∧
       outCount (LinkOneToMany w A many) j = outCount w j) ∧
    (inCount (LinkManyToOne w A many) A = inCount w A + many.length ∧
     outCount (LinkManyToOne w A many) A = outCount w A ∧
     (∀ b ∈ many, outCount (LinkManyToOne w A many) b = outCount w b + 1 ∧
                  inCount (LinkManyToOne w A many) b = inCount w b) ∧
     ∀ j, j ≠ A → j ∉ many →
       inCount (LinkManyToOne w A many) j = inCount w j ∧
       outCount (LinkManyToOne w A many) j = outCount w j) := by
  obtain ⟨_, a1, a2, a3, a4⟩ := linkOneToMany_counts A many w h1 h2 h3 h4
  obtain ⟨_, b1, b2, b3, b4⟩ := linkManyToOne_counts A many w h1 h2 h3 h4
  exact ⟨⟨a1, a2, a3, a4⟩, b1, b2, b3, b4⟩

/-- Concrete instance of link_topology_counts on a registry of three fresh
neurons: linking 0 one-to-many to 1 and 2 raises the output count of 0 by 2,
and linking many-to-one raises the input count of 0 by 2. -/
theorem link_topology_counts_witness :
    outCount (LinkOneToMany threeWorld 0 [1, 2]) 0 = outCount threeWorld 0 + 2 ∧
    inCount (LinkManyToOne threeWorld 0 [1, 2]) 0 = inCount threeWorld 0 + 2 :=
  ⟨(link_topology_counts threeWorld 0 [1, 2] (by decide) (by decide) (by decide)
      (by decide)).1.1,
   (link_topology_counts threeWorld 0 [1, 2] (by decide) (by decide) (by decide)
      (by decide)).2.1⟩

/-- C8: New constructs a neuron whose state field is stopped, whose threshold
is the given value, and whose activity counter is seeded with exactly one
unit; the neuron is appended to the registry and its control channel to the
control-channel registry.  NewNeurons does the same for each of its num
neurons, in creation order. -/
theorem new_seeds_and_registers :
    (∀ (w : World) (t : Int),
      (New w t).2.state = Nstate.stopped ∧
      (New w t).2.threshold = t ∧
      (New w t).2.activity = 1 ∧
      (New w t).1.neurons = w.neurons ++ [(New w t).2] ∧
      (New w t).1.cntlChans = w.cntlChans ++ [(New w t).2.cntlChan]) ∧
    ∀ (w : World) (num : Nat) (t : Int),
      (NewNeurons w num t).2.length = num ∧
      (NewNeurons w num t).2.map (fun n => (n.state, n.threshold, n.activity)) =
        List.replicate num (Nstate.stopped, t, 1) ∧
      (NewNeurons w num t).1.neurons = w.neurons ++ (NewNeurons w num t).2 ∧
      (NewNeurons w num t).1.cntlChans =
        w.cntlChans ++ (NewNeurons w num t).2.map (fun n => n.cntlChan) := by
  refine ⟨fun w t => ⟨rfl, rfl, rfl, rfl, rfl⟩, ?_⟩
  intro w num t
  induction num generalizing w with
  | zero => simp [NewNeurons]
  | succ m ih =>
    obtain ⟨i1, i2, i3, i4⟩ := ih (New w t).1
    refine ⟨?_, ?_, ?_, ?_⟩
    · simp [NewNeurons, i1]
    · simp only [NewNeurons, List.map_cons, i2, List.replicate_succ]
      rfl
    · simp only [NewNeurons]
      rw [i3, show (New w t).1.neurons = w.neurons ++ [(New w t).2] from rfl]
      simp
    · simp only [NewNeurons]
      rw [List.map_cons, i4,
        show (New w t).1.cntlChans = w.cntlChans ++ [(New w t).2.cntlChan] from rfl]
      simp

/-- Concrete instance of stop_keeps_state_running on a running neuron with
first dendrite 5. -/
theorem stop_keeps_state_running_witness :
    ∃ r, runStep sampleNeuron (Event.cntl { cmd := "stop" }) = some r ∧
      goroutineRun sampleNeuron [Event.cntl { cmd := "stop" }] = [some r] ∧
      r.earlyReturn = false ∧
      r.neuron.state = Nstate.running ∧
      (Fire r.neuron 8).2 = FireAction.send 5 8 :=
  (stop_keeps_state_running sampleNeuron 5 [6, 7] 8 (by decide) (by decide)).2
